import Mathlib

/-!
# QConsole: command registry, line evaluation and terminal callbacks

A shallow embedding of `src/qconsole.h` and `src/qconsole.cc`.

Conventions of the embedding

* A `std::string` / `std::string_view` is the list of its bytes (`StdString`).
* A `QString` is well-formed Unicode text, the list of its code points
  (`QString`); `QString::toStdString` is the UTF-8 encoding.
  `QString::fromStdString` is UTF-8 decoding; like `QString::fromUtf8` it skips
  a byte-order mark at the very start of its input.
* `QConsole::Trie` derives from `tsl::htrie_map<char, Command>`, a library
  container that is not part of the sources.  It is modelled as a finite map
  with pairwise distinct keys, with the operations the sources call:
  `insert` (which, like `std::map::insert`, keeps the present entry when the key
  exists), `erase`, `size`, `longest_prefix` and `equal_prefix_range`.
  The container is a hash-trie and documents no ordering of its keys; the model
  enumerates entries in the order in which their keys were first inserted.
* Calls on the collaborators (terminal history, output stream, command
  callbacks) are recorded, in order, in the `trace` field of the console state.
  The body of a callback is host code; invoking it is recorded as an event.
-/

namespace QConsole

/-! ## Strings -/

/-- Contents of a `std::string`: its bytes. -/
abbrev StdString := List Nat

/-- Contents of a `QString` holding well-formed text: its code points. -/
abbrev QString := List Char

/-- UTF-8 encoding of one code point, as byte values. -/
def utf8Char (c : Char) : List Nat :=
  if c.toNat < 0x80 then [c.toNat]
  else if c.toNat < 0x800 then [0xC0 + c.toNat / 0x40, 0x80 + c.toNat % 0x40]
  else if c.toNat < 0x10000 then
    [0xE0 + c.toNat / 0x1000, 0x80 + c.toNat / 0x40 % 0x40, 0x80 + c.toNat % 0x40]
  else
    [0xF0 + c.toNat / 0x40000, 0x80 + c.toNat / 0x1000 % 0x40,
      0x80 + c.toNat / 0x40 % 0x40, 0x80 + c.toNat % 0x40]

/-- Model of `QString::toStdString`: the UTF-8 bytes of the text. -/
def toStdString : QString → StdString
  | [] => []
  | c :: cs => utf8Char c ++ toStdString cs

/-- Whether a byte is a UTF-8 continuation byte (`10xxxxxx`). -/
def isContinuation (b : Nat) : Bool := 0x80 ≤ b && b < 0xC0

/-- `QChar::ReplacementCharacter`, U+FFFD. -/
def ReplacementCharacter : Char := Char.ofNat 0xFFFD

/-- `QChar::ByteOrderMark`, U+FEFF; its UTF-8 encoding is `EF BB BF`. -/
def ByteOrderMark : Char := Char.ofNat 0xFEFF

/-- One step of UTF-8 decoding at the lead byte `b0` followed by `rest`: the
character produced and the number of continuation bytes consumed.  A byte that
does not start a well-formed sequence (a stray continuation byte, an overlong
or truncated sequence, an encoded surrogate, a value above U+10FFFF) yields the
replacement character and consumes nothing more.  A missing byte reads as 0,
which is not a continuation byte. -/
def decodeStep (b0 : Nat) (rest : StdString) : Char × Nat :=
  let b1 := rest.getD 0 0
  let b2 := rest.getD 1 0
  let b3 := rest.getD 2 0
  let u2 := (b0 - 0xC0) * 0x40 + (b1 - 0x80)
  let u3 := (b0 - 0xE0) * 0x1000 + (b1 - 0x80) * 0x40 + (b2 - 0x80)
  let u4 := (b0 - 0xF0) * 0x40000 + (b1 - 0x80) * 0x1000 + (b2 - 0x80) * 0x40 + (b3 - 0x80)
  if b0 < 0x80 then (Char.ofNat b0, 0)
  else if 0xC2 ≤ b0 ∧ b0 ≤ 0xDF ∧ isContinuation b1 = true then (Char.ofNat u2, 1)
  else if 0xE0 ≤ b0 ∧ b0 ≤ 0xEF ∧ isContinuation b1 = true ∧ isContinuation b2 = true ∧
      0x800 ≤ u3 ∧ ¬ (0xD800 ≤ u3 ∧ u3 ≤ 0xDFFF) then (Char.ofNat u3, 2)
  else if 0xF0 ≤ b0 ∧ b0 ≤ 0xF4 ∧ isContinuation b1 = true ∧ isContinuation b2 = true ∧
      isContinuation b3 = true ∧ 0x10000 ≤ u4 ∧ u4 ≤ 0x10FFFF then (Char.ofNat u4, 3)
  else (ReplacementCharacter, 0)

/-- UTF-8 decoding with at most `n` steps; every step consumes at least one
byte, so `n = bytes.length` steps decode the whole input. -/
def decodeFuel : Nat → StdString → QString
  | 0, _ => []
  | _ + 1, [] => []
  | n + 1, b0 :: rest =>
    (decodeStep b0 rest).1 :: decodeFuel n (rest.drop (decodeStep b0 rest).2)

/-- UTF-8 decoding of a byte string, one replacement character per invalid byte. -/
def decodeUtf8 (bytes : StdString) : QString := decodeFuel bytes.length bytes

/-- Model of `QString::fromStdString` (`QString::fromUtf8`): UTF-8 decoding,
after skipping a byte-order mark `EF BB BF` at the very start of the input. -/
def fromStdString (bytes : StdString) : QString :=
  if [0xEF, 0xBB, 0xBF] <+: bytes then decodeUtf8 (bytes.drop 3) else decodeUtf8 bytes

/-- Model of `QChar::isSpace`: U+0009..U+000D, U+0020, U+0085, U+00A0 and the
code points of the Unicode separator categories Zs, Zl and Zp. -/
def isSpace (c : Char) : Bool :=
  (0x09 ≤ c.toNat && c.toNat ≤ 0x0D) || c.toNat == 0x20 || c.toNat == 0x85 ||
  c.toNat == 0xA0 || c.toNat == 0x1680 || (0x2000 ≤ c.toNat && c.toNat ≤ 0x200A) ||
  c.toNat == 0x2028 || c.toNat == 0x2029 || c.toNat == 0x202F || c.toNat == 0x205F ||
  c.toNat == 0x3000

/-- Model of `QString::trimmed`: whitespace removed from both ends. -/
def trimmed (s : QString) : QString :=
  ((s.dropWhile isSpace).reverse.dropWhile isSpace).reverse

/-- Model of `QString::split(sep)` with the default `Qt::KeepEmptyParts`: the
text is cut at every occurrence of `sep`, empty pieces are kept. -/
def split (sep : Char) : QString → List QString
  | [] => [[]]
  | c :: cs =>
    if c = sep then [] :: split sep cs
    else
      match split sep cs with
      | [] => [[c]]
      | t :: ts => (c :: t) :: ts

/-! ## Commands -/

/-- `QConsole::Color`, by its enumerator value. -/
inductive Color
  | Black | Red | Green | Yellow | Blue | Magenta | Cyan | White
deriving DecidableEq, Repr

/-- `static_cast<int>(color)`. -/
def Color.toNat : Color → Nat
  | Black => 0 | Red => 1 | Green => 2 | Yellow => 3
  | Blue => 4 | Magenta => 5 | Cyan => 6 | White => 7

/-- `QConsole::Style`. -/
inductive Style
  | Normal | Bold
deriving DecidableEq, Repr

/-- `static_cast<int>(style)`. -/
def Style.toNat : Style → Nat
  | Normal => 0 | Bold => 1

/-- `QConsole::Context`: the arguments used to invoke the command. -/
structure Context where
  arguments : List QString
deriving DecidableEq, Repr

/-- Identity of a `std::function<void(const Context&)>` supplied by the host. -/
abbrev Callback := Nat

/-- `QConsole::Command`. -/
structure Command where
  name : QString
  description : QString
  invoke : Callback
deriving DecidableEq, Repr

/-- `QConsole::colorize`: `"\e[%1;3%2m%3\e[0m"` with the style number, the
colour number and the text substituted for `%1`, `%2` and `%3`. -/
def colorize (str : QString) (color : Color) (style : Style) : QString :=
  ['\x1b', '['] ++ (Nat.repr style.toNat).toList ++ [';', '3'] ++
    (Nat.repr color.toNat).toList ++ ['m'] ++ str ++ ['\x1b', '[', '0', 'm']

/-! ## The command container -/

/-- Model of `QConsole::Trie` (`tsl::htrie_map<char, Command>`): the stored
entries, with pairwise distinct keys. -/
structure Trie where
  entries : List (StdString × Command)
  nodup : (entries.map Prod.fst).Nodup

namespace Trie

/-- The keys held by the container. -/
def keys (t : Trie) : List StdString := t.entries.map Prod.fst

/-- `new Trie()`: the empty container. -/
def empty : Trie := ⟨[], List.nodup_nil⟩

/-- `htrie_map::size`. -/
def size (t : Trie) : Nat := t.entries.length

/-- `htrie_map::insert(key, value)`: adds the entry when the key is absent and
leaves the container as it is when the key is present. -/
def insert (t : Trie) (key : StdString) (value : Command) : Trie :=
  if h : key ∈ t.entries.map Prod.fst then t
  else
    ⟨t.entries ++ [(key, value)], by
      rw [List.map_append, List.nodup_append]
      refine ⟨t.nodup, List.nodup_singleton _, ?_⟩
      intro a ha hb
      simp only [List.map_cons, List.map_nil, List.mem_singleton] at hb
      exact h (hb ▸ ha)⟩

/-- `htrie_map::erase(key)`: removes the entry of the key, if there is one. -/
def erase (t : Trie) (key : StdString) : Trie :=
  ⟨t.entries.filter (fun e => decide (e.1 ≠ key)),
    (List.filter_sublist _).map Prod.fst |>.nodup t.nodup⟩

/-- Longest key among `es` that is a prefix of `name`, with its entry. -/
def longestIn : List (StdString × Command) → StdString → Option (StdString × Command)
  | [], _ => none
  | e :: es, name =>
    match longestIn es name with
    | none => if e.1 <+: name then some e else none
    | some b => if e.1 <+: name ∧ b.1.length < e.1.length then some e else some b

/-- `htrie_map::longest_prefix(name)`: the entry whose key is the longest key
that is a prefix of `name`; `none` stands for `end()`. -/
def longest_prefix (t : Trie) (name : StdString) : Option (StdString × Command) :=
  longestIn t.entries name

/-- `htrie_map::equal_prefix_range(pre)`: the entries whose key starts with
`pre`, in the order in which the container enumerates them. -/
def equal_prefix_range (t : Trie) (pre : StdString) : List (StdString × Command) :=
  t.entries.filter (fun e => decide (pre <+: e.1))

end Trie

/-- `QConsole::findCommandByName`. -/
def findCommandByName (m_commands : Trie) (name : StdString) : Option Command :=
  match Trie.longest_prefix m_commands name with
  | some (key, value) => if key.length = name.length then some value else none
  | none => none

/-! ## Console state -/

/-- A call made on a collaborator of the console, as it is observed from
outside: the terminal history, the output stream or a command callback. -/
inductive Effect
  | history_add (line : StdString)
  | invoke (c : Command) (ctx : Context)
  | ostream (text : QString)
  | endl
  | flush
deriving DecidableEq, Repr

/-- The members of `QConsole` the embedded functions read or write.  `ttyEcho`
is the ECHO bit of the terminal behind stdin; `trace` lists, oldest first, the
calls made so far on `m_terminal`, on `m_ostream` and on command callbacks. -/
structure Console where
  m_commands : Trie
  m_historyFilePath : StdString
  m_defaultPrompt : StdString
  m_prompt : StdString
  m_echo : Bool
  m_running : Bool
  ttyEcho : Bool
  trace : List Effect

/-- `QConsole::QConsole`: the state after construction, on a terminal whose
ECHO bit is `ttyEcho`. -/
def Console.init (ttyEcho : Bool) : Console :=
  { m_commands := Trie.empty, m_historyFilePath := [], m_defaultPrompt := [],
    m_prompt := [], m_echo := true, m_running := false, ttyEcho := ttyEcho, trace := [] }

/-- Appends calls to the trace. -/
def Console.emit (s : Console) (es : List Effect) : Console :=
  { s with trace := s.trace ++ es }

/-- `QConsole::addCommand`. -/
def addCommand (s : Console) (c : Command) : Console :=
  { s with m_commands := Trie.insert s.m_commands (toStdString c.name) c }

/-- `QConsole::removeCommandByName`. -/
def removeCommandByName (s : Console) (name : QString) : Console :=
  { s with m_commands := Trie.erase s.m_commands (toStdString name) }

/-- `QConsole::commandCount`. -/
def commandCount (s : Console) : Nat := Trie.size s.m_commands

/-- `QConsole::setPrompt`. -/
def setPrompt (s : Console) (prompt : QString) : Console :=
  { s with m_prompt := toStdString prompt }

/-- `QConsole::setDefaultPrompt`. -/
def setDefaultPrompt (s : Console) (prompt : QString) : Console :=
  { s with m_defaultPrompt := toStdString prompt, m_prompt := toStdString prompt }

/-- `QConsole::resetPrompt`. -/
def resetPrompt (s : Console) : Console :=
  { s with m_prompt := s.m_defaultPrompt }

/-- `QConsole::defaultPrompt`. -/
def defaultPrompt (s : Console) : QString := fromStdString s.m_defaultPrompt

/-- `QConsole::prompt`. -/
def prompt (s : Console) : QString := fromStdString s.m_prompt

/-! ## Line evaluation -/

/-- The text `"Command not found: "`. -/
def notFoundText : QString := "Command not found: ".toList

/-- `QConsole::evaluateLine`.  `line` is the text of the C string passed in.
`tokens[0]` is `tokens.headD []`: `split` never returns an empty list. -/
def evaluateLine (s : Console) (line : QString) : Console :=
  let a := trimmed line
  if a.isEmpty then s
  else
    let tokens := split ' ' a
    let name := toStdString (tokens.headD [])
    let s1 := s.emit [Effect.history_add (toStdString a)]
    match findCommandByName s1.m_commands name with
    | some c => s1.emit [Effect.invoke c { arguments := tokens.drop 1 }]
    | none =>
      s1.emit [Effect.ostream (colorize (notFoundText ++ tokens.headD []) Color.Red Style.Normal),
        Effect.endl]

/-- `QConsole::invokeCommandByName`. -/
def invokeCommandByName (s : Console) (name : QString) (ctx : Context) : Console × Bool :=
  match findCommandByName s.m_commands (toStdString name) with
  | some c => (s.emit [Effect.invoke c ctx], true)
  | none => (s, false)

/-! ## Terminal callbacks -/

/-- `replxx::Replxx::Color`. -/
inductive ReplxxColor
  | BLACK | RED | GREEN | BROWN | BLUE | MAGENTA | CYAN | LIGHTGRAY | GRAY
  | BRIGHTRED | BRIGHTGREEN | YELLOW | BRIGHTBLUE | BRIGHTMAGENTA | BRIGHTCYAN
  | WHITE | DEFAULT
deriving DecidableEq, Repr

/-- `replxx::Replxx::Completion`. -/
structure Completion where
  text : StdString
  color : ReplxxColor
deriving DecidableEq, Repr

/-- The hint callback of `addDefaultCallbacks`: the hints returned and the
value of the `color` out-parameter after the call. -/
def hintCallback (m_commands : Trie) (input : StdString) (input_length : Int)
    (color : ReplxxColor) : List StdString × ReplxxColor :=
  if 0 < input_length then
    match Trie.equal_prefix_range m_commands input with
    | e :: _ => ([e.1], ReplxxColor.BROWN)
    | [] => ([], color)
  else ([], color)

/-- The completion callback of `addDefaultCallbacks`. -/
def completionCallback (m_commands : Trie) (input : StdString) (_input_length : Int) :
    List Completion :=
  (Trie.equal_prefix_range m_commands input).map
    (fun e => { text := e.1, color := ReplxxColor.BROWN })

/-- `std::string::npos`, also the value of `-1ul` (64-bit `unsigned long`). -/
def npos : Nat := 2 ^ 64 - 1

/-- `input.find(" ")`: the index of the first byte 0x20, `npos` if there is none. -/
def findSpace (input : StdString) : Nat :=
  if 0x20 ∈ input then input.indexOf 0x20 else npos

/-- `input.substr(0, n)`. -/
def substr0 (input : StdString) (n : Nat) : StdString := input.take n

/-- Conversion of a `size_t` to `int` (32-bit two's complement). -/
def toInt (n : Nat) : Int :=
  if n % 2 ^ 32 < 2 ^ 31 then ((n % 2 ^ 32 : Nat) : Int) else ((n % 2 ^ 32 : Nat) : Int) - 2 ^ 32

/-- The value of `prefixHighlightLength` when the loop of the highlighter
callback starts. -/
def prefixHighlightLength (m_commands : Trie) (input : StdString) : Int :=
  let endOfWord := findSpace input
  if endOfWord = npos then
    match findCommandByName m_commands input with
    | some _ => toInt input.length
    | none => 0
  else
    match findCommandByName m_commands (substr0 input endOfWord) with
    | some _ => toInt endOfWord
    | none => 0

/-- The loop `for (i; i < prefixHighlightLength; i++) colors.at(i) = BRIGHTGREEN`
with `k` iterations left; `none` when `colors.at(i)` throws `std::out_of_range`. -/
def highlightLoop (colors : List ReplxxColor) (i : Nat) : Nat → Option (List ReplxxColor)
  | 0 => some colors
  | k + 1 =>
    if i < colors.length then highlightLoop (colors.set i ReplxxColor.BRIGHTGREEN) (i + 1) k
    else none

/-- The highlighter callback of `addDefaultCallbacks`: the colour buffer after
the call, `none` when the call ends in `std::out_of_range`. -/
def highlighterCallback (m_commands : Trie) (input : StdString) (colors : List ReplxxColor) :
    Option (List ReplxxColor) :=
  highlightLoop colors 0 (prefixHighlightLength m_commands input).toNat

/-! ## Echo control -/

/-- `QConsole::setStdinEcho`: sets or clears the ECHO bit of the terminal and
records the value in `m_echo`. -/
def setStdinEcho (s : Console) (enable : Bool) : Console :=
  { s with ttyEcho := enable, m_echo := enable }

/-- `QConsole::readLine`; `word` is what `istream >> line` reads from stdin. -/
def readLine (s : Console) (prompt : QString) (word : StdString) : Console × StdString :=
  (s.emit [Effect.ostream prompt, Effect.flush], word)

/-- `QConsole::readPass`; `word` is what the inner `readLine` reads from stdin. -/
def readPass (s : Console) (prompt : QString) (word : StdString) : Console × StdString :=
  let s1 := setStdinEcho s false
  let r := readLine s1 prompt word
  let s2 := r.1.emit [Effect.endl]
  let s3 := setStdinEcho s2 true
  (s3, r.2)

/-! ## Tokens in the words of the specification -/

/-- Cuts a text at every character satisfying `p`; empty pieces are kept. -/
def cutAt (p : Char → Bool) : QString → List QString
  | [] => [[]]
  | c :: cs =>
    if p c then [] :: cutAt p cs
    else
      match cutAt p cs with
      | [] => [[c]]
      | t :: ts => (c :: t) :: ts

/-- The whitespace-delimited tokens of a text, in the words of the
specification: its maximal runs of non-whitespace characters, in order. -/
def whitespaceTokens (s : QString) : List QString :=
  (cutAt isSpace s).filter (fun t => !t.isEmpty)

/-- Tokens joined by single space characters. -/
def joinSpaces : List QString → QString
  | [] => []
  | [t] => t
  | t :: u :: us => t ++ ' ' :: joinSpaces (u :: us)

/-! ## Built-in commands -/

/-- The `exit` command of `addDefaultCommands`. -/
def exitCommand : Command :=
  { name := "exit".toList, description := "Exit the application.".toList, invoke := 0 }

/-- The `help` command of `addDefaultCommands`. -/
def helpCommand : Command :=
  { name := "help".toList, description := "Print help information.".toList, invoke := 1 }

/-- The `history` command of `addDefaultCommands`. -/
def historyCommand : Command :=
  { name := "history".toList, description := "Print command history.".toList, invoke := 2 }

/-- The `clear` command of `addDefaultCommands`. -/
def clearCommand : Command :=
  { name := "clear".toList, description := "Clear the screen.".toList, invoke := 3 }

/-- The `version` command of `addDefaultCommands`. -/
def versionCommand : Command :=
  { name := "version".toList, description := "Print the application version.".toList,
    invoke := 4 }

/-- `QConsole::addDefaultCommands`. -/
def addDefaultCommands (s : Console) : Console :=
  addCommand (addCommand (addCommand (addCommand (addCommand s exitCommand) helpCommand)
    historyCommand) clearCommand) versionCommand

/-- The `hello-world` command registered by `examples/example-simple/main.cc`. -/
def helloWorldCommand : Command :=
  { name := "hello-world".toList,
    description := "Print 'Hello, world!' and arguments.".toList, invoke := 5 }

/-! ## The container model: lookup lemmas -/

theorem Trie.ext_entries {t u : Trie} (h : t.entries = u.entries) : t = u := by
  cases t; cases u; cases h; rfl

theorem Trie.longestIn_some {es : List (StdString × Command)} {name : StdString}
    {b : StdString × Command} (h : Trie.longestIn es name = some b) :
    b ∈ es ∧ b.1 <+: name ∧ ∀ e ∈ es, e.1 <+: name → e.1.length ≤ b.1.length := by
  induction es generalizing b with
  | nil => simp [Trie.longestIn] at h
  | cons e es ih =>
    unfold Trie.longestIn at h
    cases hrec : Trie.longestIn es name with
    | none =>
      rw [hrec] at h
      have hnone : ∀ x ∈ es, ¬ x.1 <+: name := by
        clear h ih
        induction es with
        | nil => simp
        | cons y ys ihy =>
          unfold Trie.longestIn at hrec
          cases hy : Trie.longestIn ys name with
          | none =>
            rw [hy] at hrec
            simp only at hrec
            intro x hx
            rcases List.mem_cons.1 hx with rfl | hx
            · intro hp; simp [hp] at hrec
            · exact ihy hy x hx
          | some z =>
            rw [hy] at hrec
            simp only at hrec
            split at hrec <;> simp at hrec
      simp only at h
      by_cases hp : e.1 <+: name
      · rw [if_pos hp] at h
        cases h
        refine ⟨List.mem_cons_self _ _, hp, ?_⟩
        intro x hx hxp
        rcases List.mem_cons.1 hx with rfl | hx
        · exact le_rfl
        · exact absurd hxp (hnone x hx)
      · rw [if_neg hp] at h; cases h
    | some b0 =>
      rw [hrec] at h
      obtain ⟨hb0, hb0p, hb0max⟩ := ih hrec
      simp only at h
      by_cases hc : e.1 <+: name ∧ b0.1.length < e.1.length
      · rw [if_pos hc] at h
        cases h
        refine ⟨List.mem_cons_self _ _, hc.1, ?_⟩
        intro x hx hxp
        rcases List.mem_cons.1 hx with rfl | hx
        · exact le_rfl
        · exact le_trans (hb0max x hx hxp) (le_of_lt hc.2)
      · rw [if_neg hc] at h
        cases h
        refine ⟨List.mem_cons_of_mem _ hb0, hb0p, ?_⟩
        intro x hx hxp
        rcases List.mem_cons.1 hx with rfl | hx
        · by_contra hlt
          exact hc ⟨hxp, not_le.1 hlt⟩
        · exact hb0max x hx hxp

theorem Trie.longestIn_none {es : List (StdString × Command)} {name : StdString}
    (h : Trie.longestIn es name = none) : ∀ e ∈ es, ¬ e.1 <+: name := by
  induction es with
  | nil => simp
  | cons y ys ih =>
    unfold Trie.longestIn at h
    cases hy : Trie.longestIn ys name with
    | none =>
      rw [hy] at h
      simp only at h
      intro x hx
      rcases List.mem_cons.1 hx with rfl | hx
      · intro hp; simp [hp] at h
      · exact ih hy x hx
    | some z =>
      rw [hy] at h
      simp only at h
      split at h <;> simp at h

theorem Trie.entry_unique (t : Trie) {k : StdString} {c d : Command}
    (hc : (k, c) ∈ t.entries) (hd : (k, d) ∈ t.entries) : c = d := by
  have hnd := t.nodup
  generalize t.entries = es at hc hd hnd
  induction es with
  | nil => simp at hc
  | cons e es ih =>
    rw [List.map_cons, List.nodup_cons] at hnd
    have key : ∀ x, (k, x) ∈ es → k ∈ List.map Prod.fst es :=
      fun x hx => List.mem_map.2 ⟨(k, x), hx, rfl⟩
    rcases List.mem_cons.1 hc with h1 | h1
    · rcases List.mem_cons.1 hd with h2 | h2
      · rw [← h1] at h2
        exact ((Prod.mk.injEq _ _ _ _).mp h2).2.symm
      · rw [← h1] at hnd
        exact absurd (key d h2) hnd.1
    · rcases List.mem_cons.1 hd with h2 | h2
      · rw [← h2] at hnd
        exact absurd (key c h1) hnd.1
      · exact ih h1 h2 hnd.2

theorem findCommandByName_eq_some_iff (t : Trie) (name : StdString) (c : Command) :
    findCommandByName t name = some c ↔ (name, c) ∈ t.entries := by
  unfold findCommandByName Trie.longest_prefix
  constructor
  · intro h
    cases hl : Trie.longestIn t.entries name with
    | none => rw [hl] at h; simp at h
    | some b =>
      rw [hl] at h
      obtain ⟨k, v⟩ := b
      simp only at h
      obtain ⟨hmem, hp, -⟩ := Trie.longestIn_some hl
      by_cases hlen : k.length = name.length
      · rw [if_pos hlen] at h
        cases h
        have hk : k = name := List.IsPrefix.eq_of_length hp hlen
        subst hk
        exact hmem
      · rw [if_neg hlen] at h; cases h
  · intro hmem
    cases hl : Trie.longestIn t.entries name with
    | none => exact absurd (List.prefix_refl name) (Trie.longestIn_none hl _ hmem)
    | some b =>
      obtain ⟨k, v⟩ := b
      obtain ⟨hb, hp, hmax⟩ := Trie.longestIn_some hl
      have hle : name.length ≤ k.length := hmax _ hmem (List.prefix_refl name)
      have hlen : k.length = name.length := le_antisymm hp.length_le hle
      have hk : k = name := List.IsPrefix.eq_of_length hp hlen
      subst hk
      simp only [if_pos hlen]
      exact congrArg some (Trie.entry_unique t hb hmem)

theorem findCommandByName_isSome_iff (t : Trie) (name : StdString) :
    (findCommandByName t name).isSome = true ↔ name ∈ t.keys := by
  rw [Option.isSome_iff_exists]
  simp only [findCommandByName_eq_some_iff, Trie.keys, List.mem_map, Prod.exists,
    exists_and_right, exists_eq_right]

theorem findCommandByName_eq_none_iff (t : Trie) (name : StdString) :
    findCommandByName t name = none ↔ name ∉ t.keys := by
  rw [← findCommandByName_isSome_iff]
  cases findCommandByName t name <;> simp

theorem Trie.insert_of_mem (t : Trie) (key : StdString) (v : Command)
    (h : key ∈ t.keys) : Trie.insert t key v = t := by
  unfold Trie.insert
  exact dif_pos h

theorem Trie.insert_entries_of_not_mem (t : Trie) (key : StdString) (v : Command)
    (h : key ∉ t.keys) : (Trie.insert t key v).entries = t.entries ++ [(key, v)] := by
  unfold Trie.insert
  have h2 : key ∉ List.map Prod.fst t.entries := h
  rw [dif_neg h2]

theorem Trie.mem_keys_iff (t : Trie) (k : StdString) :
    k ∈ t.keys ↔ ∃ c, (k, c) ∈ t.entries := by
  simp [Trie.keys]

/-! ## Exact lookup -/

/-- C1: invocation lookup is exact.  For every registry and every token,
`findCommandByName` returns a command exactly when the token is equal to a
registered key, and then it is the entry stored under that key; a token that is
not itself registered (a proper prefix of a registered name, or an extension of
one) yields not-found.  With only `exit` registered, `ex` and `exitx` are not
found and `exit` is; with only `help` registered, `hel` is not found and `help` is. -/
theorem findCommandByName_exact (t : Trie) (token : StdString) :
    (∀ c, findCommandByName t token = some c ↔ (token, c) ∈ t.entries) ∧
    ((findCommandByName t token).isSome = true ↔ token ∈ t.keys) ∧
    (token ∉ t.keys → findCommandByName t token = none) ∧
    findCommandByName (addCommand (Console.init true) exitCommand).m_commands
      (toStdString "ex".toList) = none ∧
    findCommandByName (addCommand (Console.init true) exitCommand).m_commands
      (toStdString "exitx".toList) = none ∧
    findCommandByName (addCommand (Console.init true) exitCommand).m_commands
      (toStdString "exit".toList) = some exitCommand ∧
    findCommandByName (addCommand (Console.init true) helpCommand).m_commands
      (toStdString "hel".toList) = none ∧
    findCommandByName (addCommand (Console.init true) helpCommand).m_commands
      (toStdString "help".toList) = some helpCommand :=
  ⟨findCommandByName_eq_some_iff t token, findCommandByName_isSome_iff t token,
    (findCommandByName_eq_none_iff t token).2, by decide, by decide, by decide, by decide,
    by decide⟩

/-! ## Registering a name twice -/

/-- C2 as stated fails: after registering two commands under the name `x`, the
lookup of `x` returns the first command, not the second. -/
theorem addCommand_twice_counterexample :
    findCommandByName
      (addCommand (addCommand (Console.init true) ⟨"x".toList, "first".toList, 1⟩)
        ⟨"x".toList, "second".toList, 2⟩).m_commands (toStdString "x".toList)
      = some ⟨"x".toList, "first".toList, 1⟩ ∧
    findCommandByName
      (addCommand (addCommand (Console.init true) ⟨"x".toList, "first".toList, 1⟩)
        ⟨"x".toList, "second".toList, 2⟩).m_commands (toStdString "x".toList)
      ≠ some ⟨"x".toList, "second".toList, 2⟩ := by
  decide

/-- C2, amended: the first registration wins.  For every console and every two
commands `c1`, `c2` with the same name, `addCommand c2` after `addCommand c1`
changes nothing; the lookup of the name returns `c1` when the name was not
registered before (and the earlier entry when it was), and `commandCount`
counts the name once. -/
theorem addCommand_twice_keeps_first (s : Console) (c1 c2 : Command)
    (h : c1.name = c2.name) :
    addCommand (addCommand s c1) c2 = addCommand s c1 ∧
    (findCommandByName s.m_commands (toStdString c1.name) = none →
      findCommandByName (addCommand (addCommand s c1) c2).m_commands (toStdString c1.name)
        = some c1) ∧
    (∀ c0, findCommandByName s.m_commands (toStdString c1.name) = some c0 →
      findCommandByName (addCommand (addCommand s c1) c2).m_commands (toStdString c1.name)
        = some c0) ∧
    commandCount (addCommand (addCommand s c1) c2) =
      commandCount s +
        (if (findCommandByName s.m_commands (toStdString c1.name)).isSome then 0 else 1) := by
  have hreg : toStdString c1.name ∈ (addCommand s c1).m_commands.keys := by
    by_cases hk : toStdString c1.name ∈ s.m_commands.keys
    · simp only [addCommand]
      rw [Trie.insert_of_mem _ _ _ hk]
      exact hk
    · simp only [addCommand, Trie.keys]
      rw [Trie.insert_entries_of_not_mem _ _ _ hk]
      simp
  have hsame : addCommand (addCommand s c1) c2 = addCommand s c1 := by
    have hreg2 : toStdString c2.name ∈ (addCommand s c1).m_commands.keys := h ▸ hreg
    show { addCommand s c1 with
      m_commands := Trie.insert (addCommand s c1).m_commands (toStdString c2.name) c2 } = _
    rw [Trie.insert_of_mem _ _ _ hreg2]
  refine ⟨hsame, ?_, ?_, ?_⟩
  · intro hnone
    rw [hsame]
    have hk := (findCommandByName_eq_none_iff _ _).1 hnone
    rw [findCommandByName_eq_some_iff]
    simp only [addCommand]
    rw [Trie.insert_entries_of_not_mem _ _ _ hk]
    simp
  · intro c0 hc0
    rw [hsame]
    have hk : toStdString c1.name ∈ s.m_commands.keys :=
      (findCommandByName_isSome_iff _ _).1 (by rw [hc0]; rfl)
    simp only [addCommand]
    rw [Trie.insert_of_mem _ _ _ hk]
    exact hc0
  · rw [hsame]
    by_cases hk : toStdString c1.name ∈ s.m_commands.keys
    · have hs := (findCommandByName_isSome_iff _ _).2 hk
      simp only [addCommand, commandCount]
      rw [Trie.insert_of_mem _ _ _ hk, hs]
      simp
    · have hs := (findCommandByName_eq_none_iff _ _).2 hk
      simp only [addCommand, commandCount, Trie.size]
      rw [Trie.insert_entries_of_not_mem _ _ _ hk, hs]
      simp

/-- C2, amended, at two commands named `x` added to a fresh console. -/
theorem addCommand_twice_keeps_first_witness :
    addCommand (addCommand (Console.init true) ⟨"x".toList, "first".toList, 1⟩)
        ⟨"x".toList, "second".toList, 2⟩
      = addCommand (Console.init true) ⟨"x".toList, "first".toList, 1⟩ :=
  (addCommand_twice_keeps_first (Console.init true) ⟨"x".toList, "first".toList, 1⟩
    ⟨"x".toList, "second".toList, 2⟩ rfl).1

/-! ## Line evaluation -/

theorem trimmed_eq_nil_of_forall_isSpace (line : QString)
    (h : ∀ c ∈ line, isSpace c = true) : trimmed line = [] := by
  unfold trimmed
  have hd : line.dropWhile isSpace = [] := List.dropWhile_eq_nil_iff.2 h
  rw [hd]
  rfl

theorem split_headD (sep : Char) (a : QString) :
    (split sep a).headD [] = a.takeWhile (fun c => decide (c ≠ sep)) := by
  induction a with
  | nil => rfl
  | cons c cs ih =>
    unfold split
    by_cases hc : c = sep
    · simp [hc]
    · rw [if_neg hc]
      have ht : (c :: cs).takeWhile (fun c => decide (c ≠ sep))
          = c :: cs.takeWhile (fun c => decide (c ≠ sep)) := by
        simp [List.takeWhile_cons, hc]
      rw [ht, ← ih]
      cases split sep cs <;> rfl

theorem evaluateLine_of_nonempty (s : Console) (line : QString) (h : trimmed line ≠ []) :
    evaluateLine s line =
      match findCommandByName s.m_commands
          (toStdString ((split ' ' (trimmed line)).headD [])) with
      | some c =>
        s.emit [Effect.history_add (toStdString (trimmed line)),
          Effect.invoke c { arguments := (split ' ' (trimmed line)).drop 1 }]
      | none =>
        s.emit [Effect.history_add (toStdString (trimmed line)),
          Effect.ostream
            (colorize (notFoundText ++ (split ' ' (trimmed line)).headD []) Color.Red
              Style.Normal),
          Effect.endl] := by
  unfold evaluateLine
  have hne : (trimmed line).isEmpty = false := by
    cases hq : trimmed line with
    | nil => exact absurd hq h
    | cons _ _ => rfl
  simp only [hne, Bool.false_eq_true, if_false, Console.emit, List.append_assoc]
  cases findCommandByName s.m_commands (toStdString ((split ' ' (trimmed line)).headD [])) <;>
    simp

/-- C4: for every input line that is empty or consists only of whitespace,
`evaluateLine` does nothing: the console state, with its registry, history
calls, output calls and callback invocations, is exactly what it was. -/
theorem evaluateLine_blank (s : Console) (line : QString)
    (h : ∀ c ∈ line, isSpace c = true) :
    evaluateLine s line = s ∧ (evaluateLine s line).trace = s.trace ∧
      (evaluateLine s line).m_commands = s.m_commands := by
  have he : evaluateLine s line = s := by
    unfold evaluateLine
    rw [trimmed_eq_nil_of_forall_isSpace line h]
    rfl
  rw [he]
  exact ⟨rfl, rfl, rfl⟩

/-- C4 at the line of three spaces, on a console with the default commands. -/
theorem evaluateLine_blank_witness :
    evaluateLine (addDefaultCommands (Console.init true)) "   ".toList
      = addDefaultCommands (Console.init true) :=
  (evaluateLine_blank (addDefaultCommands (Console.init true)) "   ".toList
    (by decide)).1

/-! ## Tokens of a line -/

theorem cutAt_ne_nil (p : Char → Bool) (a : QString) : cutAt p a ≠ [] := by
  cases a with
  | nil => simp [cutAt]
  | cons c cs =>
    unfold cutAt
    by_cases hc : p c = true
    · simp [hc]
    · rw [if_neg hc]
      cases cutAt p cs <;> simp

theorem split_eq_cutAt (sep : Char) (a : QString) :
    split sep a = cutAt (fun c => decide (c = sep)) a := by
  induction a with
  | nil => rfl
  | cons c cs ih =>
    unfold split cutAt
    by_cases hc : c = sep
    · simp [hc, ih]
    · simp [hc, ih]

theorem cutAt_of_forall_not (p : Char → Bool) (t : QString) (h : ∀ c ∈ t, p c = false) :
    cutAt p t = [t] := by
  induction t with
  | nil => rfl
  | cons c cs ih =>
    unfold cutAt
    rw [h c (List.mem_cons_self _ _), ih (fun d hd => h d (List.mem_cons_of_mem _ hd))]
    simp

theorem cutAt_cons_pos (p : Char → Bool) (c : Char) (cs : QString) (hc : p c = true) :
    cutAt p (c :: cs) = [] :: cutAt p cs := by
  rw [cutAt, if_pos hc]

theorem cutAt_cons_neg (p : Char → Bool) (c : Char) (cs t : QString) (ts : List QString)
    (hc : ¬ p c = true) (h : cutAt p cs = t :: ts) :
    cutAt p (c :: cs) = (c :: t) :: ts := by
  rw [cutAt, if_neg hc, h]

theorem cutAt_append_cons (p : Char → Bool) (x : QString) (c : Char) (r : QString)
    (hc : p c = true) : cutAt p (x ++ c :: r) = cutAt p x ++ cutAt p r := by
  induction x with
  | nil =>
    rw [List.nil_append, cutAt_cons_pos p c r hc]
    rfl
  | cons d x ih =>
    rw [List.cons_append]
    by_cases hd : p d = true
    · rw [cutAt_cons_pos p d _ hd, cutAt_cons_pos p d _ hd, ih]
      rfl
    · have hx := cutAt_ne_nil p x
      cases hcx : cutAt p x with
      | nil => exact absurd hcx hx
      | cons t ts =>
        rw [hcx] at ih
        rw [cutAt_cons_neg p d _ t (ts ++ cutAt p r) hd ih, cutAt_cons_neg p d _ t ts hd hcx]
        rfl

theorem cutAt_joinSpaces (p : Char → Bool) (hp : p ' ' = true) (toks : List QString)
    (hne : toks ≠ []) (h : ∀ t ∈ toks, ∀ c ∈ t, p c = false) :
    cutAt p (joinSpaces toks) = toks := by
  induction toks with
  | nil => exact absurd rfl hne
  | cons t us ih =>
    cases us with
    | nil =>
      simp only [joinSpaces]
      exact cutAt_of_forall_not p t (h t (List.mem_cons_self _ _))
    | cons u us =>
      simp only [joinSpaces]
      rw [cutAt_append_cons p t ' ' _ hp, cutAt_of_forall_not p t (h t (List.mem_cons_self _ _)),
        ih (List.cons_ne_nil _ _) (fun w hw => h w (List.mem_cons_of_mem _ hw))]
      rfl

theorem whitespaceTokens_dropWhile (s : QString) :
    whitespaceTokens (s.dropWhile isSpace) = whitespaceTokens s := by
  induction s with
  | nil => rfl
  | cons c cs ih =>
    by_cases hc : isSpace c = true
    · rw [List.dropWhile_cons_of_pos hc, ih]
      simp [whitespaceTokens, cutAt, hc]
    · rw [List.dropWhile_cons_of_neg hc]

theorem whitespaceTokens_rdropWhile (s : QString) :
    whitespaceTokens (s.rdropWhile isSpace) = whitespaceTokens s := by
  induction s using List.reverseRecOn with
  | nil => rfl
  | append_singleton xs c ih =>
    by_cases hc : isSpace c = true
    · rw [List.rdropWhile_concat_pos _ _ _ hc, ih]
      simp [whitespaceTokens, cutAt_append_cons isSpace xs c [] hc, cutAt]
    · rw [List.rdropWhile_concat_neg _ _ _ hc]

theorem whitespaceTokens_trimmed (s : QString) :
    whitespaceTokens (trimmed s) = whitespaceTokens s := by
  have h : trimmed s = (s.dropWhile isSpace).rdropWhile isSpace := rfl
  rw [h, whitespaceTokens_rdropWhile, whitespaceTokens_dropWhile]

theorem isSpace_space : isSpace ' ' = true := by decide

theorem ne_space_of_not_isSpace {c : Char} (h : isSpace c = false) :
    decide (c = ' ') = false := by
  by_cases hc : c = ' '
  · subst hc
    rw [isSpace_space] at h
    cases h
  · simp [hc]

/-- C3 as stated fails.  With only `hello-world` registered: on the line
`hello-world  a` (two spaces) the callback receives the arguments `""` and `a`,
not the single remaining whitespace-delimited token `a`; on the line
`hello-world<TAB>a`, whose first whitespace-delimited token is the registered
name `hello-world`, no callback is invoked and the not-found line is written. -/
theorem evaluateLine_tokens_counterexample :
    (whitespaceTokens "hello-world  a".toList).headD [] = helloWorldCommand.name ∧
    (whitespaceTokens "hello-world  a".toList).drop 1 = ["a".toList] ∧
    (evaluateLine (addCommand (Console.init true) helloWorldCommand)
        "hello-world  a".toList).trace =
      [Effect.history_add (toStdString "hello-world  a".toList),
        Effect.invoke helloWorldCommand { arguments := ["".toList, "a".toList] }] ∧
    (whitespaceTokens "hello-world\ta".toList).headD [] = helloWorldCommand.name ∧
    (evaluateLine (addCommand (Console.init true) helloWorldCommand)
        "hello-world\ta".toList).trace =
      [Effect.history_add (toStdString "hello-world\ta".toList),
        Effect.ostream "\x1b[0;31mCommand not found: hello-world\ta\x1b[0m".toList,
        Effect.endl] := by
  decide

/-- C3, amended: tokens are cut at space characters (U+0020) only.  For every
line whose trimmed form is non-empty and whose first piece (the text of the
trimmed line before its first space) is a registered command name,
`evaluateLine` records the line in the history and invokes that command's
callback exactly once, with a Context whose arguments are the remaining pieces
of the trimmed line cut at every space, in order, empty pieces included; no
other command is invoked.  When the trimmed line consists of non-empty
whitespace-free tokens joined by single spaces, the pieces are exactly those
tokens, which are also its whitespace-delimited tokens. -/
theorem evaluateLine_invokes (s : Console) (line : QString) (c : Command)
    (hne : trimmed line ≠ [])
    (hreg : findCommandByName s.m_commands
      (toStdString ((trimmed line).takeWhile (fun ch => decide (ch ≠ ' ')))) = some c) :
    evaluateLine s line =
      s.emit [Effect.history_add (toStdString (trimmed line)),
        Effect.invoke c { arguments := (split ' ' (trimmed line)).drop 1 }] ∧
    (∀ toks : List QString, (∀ t ∈ toks, t ≠ [] ∧ ∀ ch ∈ t, isSpace ch = false) →
      trimmed line = joinSpaces toks →
        split ' ' (trimmed line) = toks ∧ whitespaceTokens line = toks) := by
  have hev := evaluateLine_of_nonempty s line hne
  rw [split_headD, hreg] at hev
  refine ⟨hev, ?_⟩
  intro toks htoks hjoin
  have hnil : toks ≠ [] := by
    intro h0
    rw [h0] at hjoin
    exact hne hjoin
  constructor
  · rw [hjoin, split_eq_cutAt]
    exact cutAt_joinSpaces _ (by decide) toks hnil
      (fun t ht ch hch => ne_space_of_not_isSpace ((htoks t ht).2 ch hch))
  · rw [← whitespaceTokens_trimmed, hjoin]
    unfold whitespaceTokens
    rw [cutAt_joinSpaces isSpace isSpace_space toks hnil (fun t ht => (htoks t ht).2)]
    rw [List.filter_eq_self]
    intro t ht
    have := (htoks t ht).1
    cases t with
    | nil => exact absurd rfl this
    | cons _ _ => rfl

/-- C3, amended, at the line `hello-world a b` of the specification's scenario:
`hello-world` is invoked with the arguments `a` and `b`. -/
theorem evaluateLine_invokes_witness :
    evaluateLine (addCommand (Console.init true) helloWorldCommand) "hello-world a b".toList =
      (addCommand (Console.init true) helloWorldCommand).emit
        [Effect.history_add (toStdString "hello-world a b".toList),
          Effect.invoke helloWorldCommand { arguments := ["a".toList, "b".toList] }] :=
  (evaluateLine_invokes (addCommand (Console.init true) helloWorldCommand)
    "hello-world a b".toList helloWorldCommand (by decide) (by decide)).1

/-! ## Unknown commands -/

theorem char_eq_of_toNat_eq {c d : Char} (h : c.toNat = d.toNat) : c = d := by
  apply Char.ext
  apply UInt32.ext
  exact h

theorem char_toNat_lt (c : Char) : c.toNat < 0x110000 := by
  have h : c.toNat < 55296 ∨ 57343 < c.toNat ∧ c.toNat < 1114112 := c.valid
  omega

theorem utf8Char_append_inj (c d : Char) (x y : List Nat)
    (h : utf8Char c ++ x = utf8Char d ++ y) : c = d ∧ x = y := by
  have hc := char_toNat_lt c
  have hd := char_toNat_lt d
  unfold utf8Char at h
  split_ifs at h <;>
    simp only [List.cons_append, List.nil_append, List.cons.injEq] at h <;>
    first
      | (exfalso; omega)
      | (refine ⟨char_eq_of_toNat_eq ?_, ?_⟩
         · omega
         · tauto)

theorem utf8Char_ne_nil (c : Char) : utf8Char c ≠ [] := by
  unfold utf8Char
  split_ifs <;> simp

theorem toStdString_injective {a b : QString} (h : toStdString a = toStdString b) : a = b := by
  induction a generalizing b with
  | nil =>
    cases b with
    | nil => rfl
    | cons d ds =>
      simp only [toStdString] at h
      exact absurd (List.append_eq_nil.1 h.symm).1 (utf8Char_ne_nil d)
  | cons c cs ih =>
    cases b with
    | nil =>
      simp only [toStdString] at h
      exact absurd (List.append_eq_nil.1 h).1 (utf8Char_ne_nil c)
    | cons d ds =>
      simp only [toStdString] at h
      obtain ⟨hcd, hrest⟩ := utf8Char_append_inj c d _ _ h
      rw [hcd, ih hrest]

/-! ## Removing and adding commands -/

theorem Trie.mem_erase_entries (t : Trie) (key k : StdString) (c : Command) :
    (k, c) ∈ (Trie.erase t key).entries ↔ (k, c) ∈ t.entries ∧ k ≠ key := by
  simp [Trie.erase, List.mem_filter]

theorem Trie.erase_of_not_mem (t : Trie) (key : StdString) (h : key ∉ t.keys) :
    Trie.erase t key = t := by
  apply Trie.ext_entries
  simp only [Trie.erase]
  rw [List.filter_eq_self]
  intro e he
  have : e.1 ≠ key := by
    intro heq
    exact h (List.mem_map.2 ⟨e, he, heq⟩)
  simpa using this

theorem length_filter_ne_of_nodup (es : List (StdString × Command)) (key : StdString)
    (hnd : (es.map Prod.fst).Nodup) (h : key ∈ es.map Prod.fst) :
    (es.filter (fun e => decide (e.1 ≠ key))).length + 1 = es.length := by
  induction es with
  | nil => simp at h
  | cons e es ih =>
    rw [List.map_cons, List.nodup_cons] at hnd
    by_cases he : e.1 = key
    · have hnot : key ∉ es.map Prod.fst := he ▸ hnd.1
      have hfil : es.filter (fun e => decide (e.1 ≠ key)) = es := by
        rw [List.filter_eq_self]
        intro x hx
        have : x.1 ≠ key := fun hxk => hnot (List.mem_map.2 ⟨x, hx, hxk⟩)
        simpa using this
      have hp : ¬ decide (e.1 ≠ key) = true := by simp [he]
      have hcons : List.filter (fun e : StdString × Command => decide (e.1 ≠ key)) (e :: es)
          = List.filter (fun e : StdString × Command => decide (e.1 ≠ key)) es :=
        List.filter_cons_of_neg hp
      rw [hcons, hfil]
      rfl
    · have hin : key ∈ es.map Prod.fst := by
        rcases List.mem_cons.1 h with h1 | h1
        · exact absurd h1.symm he
        · exact h1
      have hp : decide (e.1 ≠ key) = true := by simp [he]
      have hcons : List.filter (fun e : StdString × Command => decide (e.1 ≠ key)) (e :: es)
          = e :: List.filter (fun e : StdString × Command => decide (e.1 ≠ key)) es :=
        List.filter_cons_of_pos hp
      rw [hcons, List.length_cons, List.length_cons, ih hnd.2 hin]

/-- C6: `removeCommandByName` removes exactly the named entry.  If the name is
registered, afterwards its lookup is not-found and `commandCount` is one less;
the lookup of every other key is unchanged; if the name is not registered the
console is unchanged.  After registering only `exit` and removing it,
`commandCount` is 0 and evaluating `exit` writes the not-found line. -/
theorem removeCommandByName_exact (s : Console) (name : QString) :
    (∀ c, findCommandByName s.m_commands (toStdString name) = some c →
      findCommandByName (removeCommandByName s name).m_commands (toStdString name) = none ∧
      commandCount (removeCommandByName s name) + 1 = commandCount s) ∧
    (∀ k, k ≠ toStdString name →
      findCommandByName (removeCommandByName s name).m_commands k
        = findCommandByName s.m_commands k) ∧
    (findCommandByName s.m_commands (toStdString name) = none →
      removeCommandByName s name = s) ∧
    commandCount (removeCommandByName (addCommand (Console.init true) exitCommand)
      "exit".toList) = 0 ∧
    (evaluateLine (removeCommandByName (addCommand (Console.init true) exitCommand)
        "exit".toList) "exit".toList).trace =
      [Effect.history_add (toStdString "exit".toList),
        Effect.ostream "\x1b[0;31mCommand not found: exit\x1b[0m".toList, Effect.endl] := by
  refine ⟨?_, ?_, ?_, by decide, by decide⟩
  · intro c hc
    constructor
    · rw [findCommandByName_eq_none_iff, Trie.mem_keys_iff]
      rintro ⟨d, hd⟩
      exact ((Trie.mem_erase_entries _ _ _ _).1 hd).2 rfl
    · have hk : toStdString name ∈ s.m_commands.keys :=
        (findCommandByName_isSome_iff _ _).1 (by rw [hc]; rfl)
      exact length_filter_ne_of_nodup s.m_commands.entries (toStdString name)
        s.m_commands.nodup hk
  · intro k hk
    apply Option.ext
    intro c
    simp only [Option.mem_def, findCommandByName_eq_some_iff, removeCommandByName,
      Trie.mem_erase_entries]
    exact ⟨fun h => h.1, fun h => ⟨h, hk⟩⟩
  · intro hnone
    have hk := (findCommandByName_eq_none_iff _ _).1 hnone
    show { s with m_commands := Trie.erase s.m_commands (toStdString name) } = s
    rw [Trie.erase_of_not_mem _ _ hk]

theorem foldl_addCommand_entries (cmds : List Command) (s : Console)
    (hd : (cmds.map Command.name).Nodup)
    (hs : ∀ c ∈ cmds, toStdString c.name ∉ s.m_commands.keys) :
    (cmds.foldl addCommand s).m_commands.entries =
      s.m_commands.entries ++ cmds.map (fun c => (toStdString c.name, c)) := by
  induction cmds generalizing s with
  | nil => simp
  | cons c cs ih =>
    rw [List.map_cons, List.nodup_cons] at hd
    have hc : toStdString c.name ∉ s.m_commands.keys := hs c (List.mem_cons_self _ _)
    have hent : (addCommand s c).m_commands.entries
        = s.m_commands.entries ++ [(toStdString c.name, c)] :=
      Trie.insert_entries_of_not_mem _ _ _ hc
    rw [List.foldl_cons, ih (addCommand s c) hd.2, hent]
    · simp
    · intro d hdm hmem
      have hmem2 : toStdString d.name ∈ List.map Prod.fst (addCommand s c).m_commands.entries :=
        hmem
      rw [hent, List.map_append, List.mem_append] at hmem2
      rcases hmem2 with h1 | h1
      · exact hs d (List.mem_cons_of_mem _ hdm) h1
      · simp only [List.map_cons, List.map_nil, List.mem_singleton] at h1
        have hname : d.name = c.name := toStdString_injective h1
        exact hd.1 (hname ▸ List.mem_map_of_mem Command.name hdm)

/-- C8: for every sequence of commands with pairwise distinct names added to a
console whose registry is empty, the lookup of each inserted name returns the
command inserted under it, and `commandCount` equals the number of commands
inserted. -/
theorem addCommand_distinct (s : Console) (cmds : List Command)
    (hs : commandCount s = 0) (hd : (cmds.map Command.name).Nodup) :
    (∀ c ∈ cmds,
      findCommandByName (cmds.foldl addCommand s).m_commands (toStdString c.name) = some c) ∧
    commandCount (cmds.foldl addCommand s) = cmds.length := by
  have hnil : s.m_commands.entries = [] := List.length_eq_zero.1 hs
  have hent := foldl_addCommand_entries cmds s hd (by
    intro c _ hmem
    have hmem2 : toStdString c.name ∈ List.map Prod.fst s.m_commands.entries := hmem
    rw [hnil] at hmem2
    simp at hmem2)
  rw [hnil, List.nil_append] at hent
  constructor
  · intro c hc
    rw [findCommandByName_eq_some_iff, hent]
    exact List.mem_map.2 ⟨c, hc, rfl⟩
  · simp only [commandCount, Trie.size]
    rw [hent, List.length_map]

/-- C8 at the five default commands added to a fresh console. -/
theorem addCommand_distinct_witness :
    commandCount ([exitCommand, helpCommand, historyCommand, clearCommand,
      versionCommand].foldl addCommand (Console.init true)) = 5 :=
  (addCommand_distinct (Console.init true)
    [exitCommand, helpCommand, historyCommand, clearCommand, versionCommand]
    (by decide) (by decide)).2

/-! ## Completion -/

/-- C7 as stated fails: with `version` registered before `history`, the
completions of the empty input are `version`, `history` in this order, although
`history` precedes `version` lexicographically. -/
theorem completionCallback_order_counterexample :
    (completionCallback
        (addCommand (addCommand (Console.init true) versionCommand)
          historyCommand).m_commands [] 0).map Completion.text
      = [toStdString "version".toList, toStdString "history".toList] ∧
    toStdString "history".toList < toStdString "version".toList := by
  decide

/-- C7, amended: no order is promised.  For every registry and every input, the
completion callback returns exactly the registered keys that start with the
input, each once, with no cap on their number (none when no key matches), in
the order in which the container enumerates its keys, and tags each with the
colour BROWN.  With `help` and `history` registered, the input `h` gives `help`
and `history`. -/
theorem completionCallback_exact (t : Trie) (input : StdString) (input_length : Int) :
    (completionCallback t input input_length).map Completion.text
      = t.keys.filter (fun k => decide (input <+: k)) ∧
    ((completionCallback t input input_length).map Completion.text).Nodup ∧
    (∀ k, k ∈ (completionCallback t input input_length).map Completion.text ↔
      k ∈ t.keys ∧ input <+: k) ∧
    (∀ x ∈ completionCallback t input input_length, x.color = ReplxxColor.BROWN) ∧
    ((completionCallback
        (addCommand (addCommand (Console.init true) helpCommand) historyCommand).m_commands
        (toStdString "h".toList) 1).map Completion.text).Perm
      [toStdString "help".toList, toStdString "history".toList] := by
  have h1 : (completionCallback t input input_length).map Completion.text
      = t.keys.filter (fun k => decide (input <+: k)) := by
    simp only [completionCallback, Trie.equal_prefix_range, Trie.keys, List.map_map]
    generalize t.entries = es
    induction es with
    | nil => rfl
    | cons e es ih =>
      by_cases hp : input <+: e.1
      · simp [List.filter_cons, hp, ← ih]
      · simp [List.filter_cons, hp, ← ih]
  refine ⟨h1, ?_, ?_, ?_, by decide⟩
  · rw [h1]
    exact (List.filter_sublist _).nodup t.nodup
  · intro k
    rw [h1, List.mem_filter]
    simp
  · intro x hx
    simp only [completionCallback, List.mem_map] at hx
    obtain ⟨e, -, rfl⟩ := hx
    rfl

/-! ## Echo -/

/-- C10 as stated fails: when echo was switched off before the call (`m_echo`
is false), `readPass` returns with `m_echo` true. -/
theorem readPass_echo_counterexample :
    (setStdinEcho (Console.init true) false).m_echo = false ∧
    (readPass (setStdinEcho (Console.init true) false) "Password: ".toList
      (toStdString "secret".toList)).1.m_echo = true := by
  decide

/-- C10, amended: `readPass` leaves echo switched on.  For every session state,
after `readPass` returns the echo flag `m_echo` and the ECHO bit of the terminal
are on, whatever they were before; so the flag equals its value before the call
exactly when echo was on before.  The value returned is the word read. -/
theorem readPass_echo (s : Console) (prompt : QString) (word : StdString) :
    (readPass s prompt word).1.m_echo = true ∧
    (readPass s prompt word).1.ttyEcho = true ∧
    ((readPass s prompt word).1.m_echo = s.m_echo ↔ s.m_echo = true) ∧
    (readPass s prompt word).2 = word ∧
    (readPass s prompt word).1.trace
      = s.trace ++ [Effect.ostream prompt, Effect.flush, Effect.endl] := by
  refine ⟨rfl, rfl, ?_, rfl, ?_⟩
  · show true = s.m_echo ↔ s.m_echo = true
    exact eq_comm
  · simp [readPass, readLine, setStdinEcho, Console.emit]

/-! ## Highlighting -/

theorem toStdString_append (a b : QString) :
    toStdString (a ++ b) = toStdString a ++ toStdString b := by
  induction a with
  | nil => rfl
  | cons c cs ih =>
    show utf8Char c ++ toStdString (cs ++ b) = utf8Char c ++ toStdString cs ++ toStdString b
    rw [ih, List.append_assoc]

theorem eq_space_of_mem_utf8Char {c : Char} (h : 0x20 ∈ utf8Char c) : c = ' ' := by
  have hc : c.toNat = 32 := by
    unfold utf8Char at h
    split_ifs at h <;>
      simp only [List.mem_cons, List.mem_singleton, List.not_mem_nil, or_false] at h <;> omega
  exact char_eq_of_toNat_eq hc

theorem space_not_mem_toStdString (a : QString) (h : ∀ c ∈ a, c ≠ ' ') :
    0x20 ∉ toStdString a := by
  induction a with
  | nil => simp [toStdString]
  | cons c cs ih =>
    simp only [toStdString, List.mem_append, not_or]
    exact ⟨fun hm => h c (List.mem_cons_self _ _) (eq_space_of_mem_utf8Char hm),
      ih (fun d hd => h d (List.mem_cons_of_mem _ hd))⟩

theorem length_toStdString_ascii (a : QString) (h : ∀ c ∈ a, c.toNat < 128) :
    (toStdString a).length = a.length := by
  induction a with
  | nil => rfl
  | cons c cs ih =>
    have hc : utf8Char c = [c.toNat] := by
      unfold utf8Char
      rw [if_pos (h c (List.mem_cons_self _ _))]
    simp only [toStdString, hc, List.length_append, List.length_cons, List.length_nil,
      ih (fun d hd => h d (List.mem_cons_of_mem _ hd))]
    omega

theorem span_decomp (s : QString) :
    (s.takeWhile (fun ch => decide (ch ≠ ' ')) = s ∧ ∀ c ∈ s, c ≠ ' ') ∨
    ∃ r, s = s.takeWhile (fun ch => decide (ch ≠ ' ')) ++ ' ' :: r := by
  induction s with
  | nil => left; simp
  | cons c cs ih =>
    by_cases hc : c = ' '
    · right
      refine ⟨cs, ?_⟩
      simp [List.takeWhile_cons, hc]
    · have ht : (c :: cs).takeWhile (fun ch => decide (ch ≠ ' '))
          = c :: cs.takeWhile (fun ch => decide (ch ≠ ' ')) := by
        simp [List.takeWhile_cons, hc]
      rcases ih with ⟨h1, h2⟩ | ⟨r, hr⟩
      · left
        rw [ht, h1]
        refine ⟨rfl, ?_⟩
        intro d hd
        rcases List.mem_cons.1 hd with rfl | hd
        · exact hc
        · exact h2 d hd
      · right
        refine ⟨r, ?_⟩
        rw [ht, List.cons_append, ← hr]

theorem span_no_space (s : QString) :
    ∀ c ∈ s.takeWhile (fun ch => decide (ch ≠ ' ')), c ≠ ' ' := by
  intro c hc
  have := List.mem_takeWhile_imp hc
  simpa using this

theorem findSpace_of_no_space (s : QString) (h : ∀ c ∈ s, c ≠ ' ') :
    findSpace (toStdString s) = npos := by
  unfold findSpace
  rw [if_neg (space_not_mem_toStdString s h)]

theorem findSpace_append_space (a r : QString) (h : ∀ c ∈ a, c ≠ ' ') :
    findSpace (toStdString (a ++ ' ' :: r)) = (toStdString a).length := by
  have hb : toStdString (a ++ ' ' :: r) = toStdString a ++ 0x20 :: toStdString r := by
    rw [toStdString_append]
    rfl
  unfold findSpace
  rw [hb, if_pos (by simp), List.indexOf_append_of_not_mem (space_not_mem_toStdString a h),
    List.indexOf_cons_self]
  rfl

theorem toInt_of_lt {n : Nat} (h : n < 2 ^ 31) : (toInt n).toNat = n := by
  unfold toInt
  have h1 : n % 2 ^ 32 = n := Nat.mod_eq_of_lt (by omega)
  rw [h1, if_pos h]
  rfl

theorem highlightLoop_eq (k : Nat) :
    ∀ (colors : List ReplxxColor) (i : Nat), i + k ≤ colors.length →
      highlightLoop colors i k =
        some (colors.take i ++ List.replicate k ReplxxColor.BRIGHTGREEN
          ++ colors.drop (i + k)) := by
  induction k with
  | zero =>
    intro colors i _
    simp [highlightLoop]
  | succ k ih =>
    intro colors i h
    have hi : i < colors.length := by omega
    rw [highlightLoop, if_pos hi, ih _ _ (by rw [List.length_set]; omega)]
    congr 1
    have hset : colors.set i ReplxxColor.BRIGHTGREEN
        = List.take i colors ++ ReplxxColor.BRIGHTGREEN :: List.drop (i + 1) colors := by
      rw [List.set_eq_take_append_cons_drop, if_pos hi]
    have hlen : (List.take i colors).length = i := by
      rw [List.length_take]; omega
    have e1 : List.take (i + 1) (colors.set i ReplxxColor.BRIGHTGREEN)
        = List.take i colors ++ [ReplxxColor.BRIGHTGREEN] := by
      rw [hset, List.take_append_eq_append_take, hlen]
      simp
    have e2 : List.drop (i + 1 + k) (colors.set i ReplxxColor.BRIGHTGREEN)
        = List.drop (i + (k + 1)) colors := by
      rw [List.drop_set_of_lt _ _ (by omega)]
      congr 1
      omega
    rw [e1, e2, List.replicate_succ]
    simp

theorem prefixHighlightLength_toStdString (t : Trie) (s : QString)
    (hsize : (toStdString s).length < 2 ^ 31) :
    (prefixHighlightLength t (toStdString s)).toNat =
      if (findCommandByName t
          (toStdString (s.takeWhile (fun ch => decide (ch ≠ ' '))))).isSome
      then (toStdString (s.takeWhile (fun ch => decide (ch ≠ ' ')))).length else 0 := by
  rcases span_decomp s with ⟨h1, h2⟩ | ⟨r, hr⟩
  · rw [h1]
    unfold prefixHighlightLength
    simp only [findSpace_of_no_space s h2, if_true]
    cases findCommandByName t (toStdString s) with
    | none => rfl
    | some c => exact toInt_of_lt hsize
  · have hspan := span_no_space s
    generalize s.takeWhile (fun ch => decide (ch ≠ ' ')) = a at hr hspan
    have hfs : findSpace (toStdString s) = (toStdString a).length := by
      rw [hr]
      exact findSpace_append_space a r hspan
    have hle : (toStdString a).length ≤ (toStdString s).length := by
      rw [hr, toStdString_append, List.length_append]
      omega
    have hne : (toStdString a).length ≠ npos := by
      unfold npos
      omega
    have hsub : substr0 (toStdString s) (toStdString a).length = toStdString a := by
      unfold substr0
      rw [hr, toStdString_append, List.take_left]
    unfold prefixHighlightLength
    simp only [hfs, if_neg hne, hsub]
    cases findCommandByName t (toStdString a) with
    | none => rfl
    | some c => exact toInt_of_lt (by omega)

/-- C9 as stated fails.  With only `help` registered, on the input
`help<TAB>x` the substring up to the first whitespace character is the
registered name `help`, yet no position is marked.  With only a command named
`é` registered, on the input `é x` the command-name span is the single
character `é`, yet positions 0 and 1 are marked: position 1 lies after the
span. -/
theorem highlighterCallback_counterexample :
    findCommandByName (addCommand (Console.init true) helpCommand).m_commands
      (toStdString ("help\tx".toList.takeWhile (fun ch => !isSpace ch))) = some helpCommand ∧
    highlighterCallback (addCommand (Console.init true) helpCommand).m_commands
      (toStdString "help\tx".toList) (List.replicate 6 ReplxxColor.DEFAULT)
      = some (List.replicate 6 ReplxxColor.DEFAULT) ∧
    findCommandByName (addCommand (Console.init true) ⟨"é".toList, [], 6⟩).m_commands
      (toStdString ("é x".toList.takeWhile (fun ch => !isSpace ch))) = some ⟨"é".toList, [], 6⟩ ∧
    ("é x".toList.takeWhile (fun ch => !isSpace ch)).length = 1 ∧
    highlighterCallback (addCommand (Console.init true) ⟨"é".toList, [], 6⟩).m_commands
      (toStdString "é x".toList) (List.replicate 3 ReplxxColor.DEFAULT)
      = some [ReplxxColor.BRIGHTGREEN, ReplxxColor.BRIGHTGREEN, ReplxxColor.DEFAULT] := by
  decide

/-- C9, amended: the span ends at the first space character (U+0020) only, and
the marking is stated for spans of ASCII characters.  For every registry and
every input text of fewer than 2^31 bytes, with the command-name span being the
text before the first space, or the whole input if it contains no space: if the
span is not a registered command name the colour buffer is left unchanged;
if it is a registered name made of ASCII characters and the buffer has one slot
per character of the input, precisely the positions `0 .. length(span)-1` are
set to BRIGHTGREEN and the positions from `length(span)` on are left as they
were. -/
theorem highlighterCallback_span (t : Trie) (s : QString) (colors : List ReplxxColor)
    (hsize : (toStdString s).length < 2 ^ 31) :
    (findCommandByName t (toStdString (s.takeWhile (fun ch => decide (ch ≠ ' ')))) = none →
      highlighterCallback t (toStdString s) colors = some colors) ∧
    (∀ c, findCommandByName t (toStdString (s.takeWhile (fun ch => decide (ch ≠ ' '))))
        = some c →
      (∀ ch ∈ s.takeWhile (fun ch => decide (ch ≠ ' ')), ch.toNat < 128) →
      colors.length = s.length →
      highlighterCallback t (toStdString s) colors =
        some (List.replicate (s.takeWhile (fun ch => decide (ch ≠ ' '))).length
            ReplxxColor.BRIGHTGREEN
          ++ colors.drop (s.takeWhile (fun ch => decide (ch ≠ ' '))).length)) := by
  have hp := prefixHighlightLength_toStdString t s hsize
  constructor
  · intro hnone
    unfold highlighterCallback
    rw [hp, hnone]
    rfl
  · intro c hc hascii hlen
    unfold highlighterCallback
    rw [hp, hc, length_toStdString_ascii _ hascii]
    have hle : (s.takeWhile (fun ch => decide (ch ≠ ' '))).length ≤ colors.length := by
      rw [hlen]
      exact (List.takeWhile_prefix _).length_le
    simp only [Option.isSome_some, if_true]
    rw [highlightLoop_eq _ colors 0 (by omega)]
    simp

/-- C9, amended, at the input `help me` with the default commands registered:
the four positions of `help` are marked. -/
theorem highlighterCallback_span_witness :
    highlighterCallback (addDefaultCommands (Console.init true)).m_commands
      (toStdString "help me".toList) (List.replicate 7 ReplxxColor.DEFAULT)
      = some (List.replicate 4 ReplxxColor.BRIGHTGREEN
          ++ List.replicate 3 ReplxxColor.DEFAULT) :=
  (highlighterCallback_span (addDefaultCommands (Console.init true)).m_commands
    "help me".toList (List.replicate 7 ReplxxColor.DEFAULT) (by decide)).2
    helpCommand (by decide) (by decide) (by decide)

/-! ## Decoding UTF-8 -/

theorem char_toNat_valid (c : Char) : c.toNat < 0xD800 ∨ (0xDFFF < c.toNat ∧ c.toNat < 0x110000) :=
  c.valid

theorem decodeStep_one (c : Char) (h1 : c.toNat < 0x80) (rest : StdString) :
    decodeStep c.toNat rest = (c, 0) := by
  unfold decodeStep
  simp only [if_pos h1, Char.ofNat_toNat]

theorem decodeStep_two (c : Char) (h1 : ¬ c.toNat < 0x80) (h2 : c.toNat < 0x800)
    (rest : StdString) :
    decodeStep (0xC0 + c.toNat / 0x40) ((0x80 + c.toNat % 0x40) :: rest) = (c, 1) := by
  unfold decodeStep
  have e : (0xC0 + c.toNat / 0x40 - 0xC0) * 0x40 + (0x80 + c.toNat % 0x40 - 0x80) = c.toNat := by
    omega
  have hc : isContinuation (0x80 + c.toNat % 0x40) = true := by
    simp only [isContinuation, Bool.and_eq_true, decide_eq_true_eq]
    omega
  simp only [List.getD_cons_zero, e, hc]
  rw [if_neg (by omega), if_pos ⟨by omega, by omega, trivial⟩, Char.ofNat_toNat]

theorem decodeStep_three (c : Char) (h2 : ¬ c.toNat < 0x800) (h3 : c.toNat < 0x10000)
    (rest : StdString) :
    decodeStep (0xE0 + c.toNat / 0x1000)
      ((0x80 + c.toNat / 0x40 % 0x40) :: (0x80 + c.toNat % 0x40) :: rest) = (c, 2) := by
  have hv := char_toNat_valid c
  unfold decodeStep
  have e : (0xE0 + c.toNat / 0x1000 - 0xE0) * 0x1000 + (0x80 + c.toNat / 0x40 % 0x40 - 0x80) * 0x40
      + (0x80 + c.toNat % 0x40 - 0x80) = c.toNat := by
    omega
  have hc1 : isContinuation (0x80 + c.toNat / 0x40 % 0x40) = true := by
    simp only [isContinuation, Bool.and_eq_true, decide_eq_true_eq]
    omega
  have hc2 : isContinuation (0x80 + c.toNat % 0x40) = true := by
    simp only [isContinuation, Bool.and_eq_true, decide_eq_true_eq]
    omega
  simp only [List.getD_cons_zero, List.getD_cons_succ, e, hc1, hc2]
  rw [if_neg (by omega), if_neg (by omega),
    if_pos ⟨by omega, by omega, trivial, trivial, by omega, by omega⟩, Char.ofNat_toNat]

theorem decodeStep_four (c : Char) (h3 : ¬ c.toNat < 0x10000) (rest : StdString) :
    decodeStep (0xF0 + c.toNat / 0x40000)
      ((0x80 + c.toNat / 0x1000 % 0x40) :: (0x80 + c.toNat / 0x40 % 0x40) ::
        (0x80 + c.toNat % 0x40) :: rest) = (c, 3) := by
  have hv := char_toNat_valid c
  unfold decodeStep
  have e : (0xF0 + c.toNat / 0x40000 - 0xF0) * 0x40000
      + (0x80 + c.toNat / 0x1000 % 0x40 - 0x80) * 0x1000
      + (0x80 + c.toNat / 0x40 % 0x40 - 0x80) * 0x40
      + (0x80 + c.toNat % 0x40 - 0x80) = c.toNat := by
    omega
  have hc1 : isContinuation (0x80 + c.toNat / 0x1000 % 0x40) = true := by
    simp only [isContinuation, Bool.and_eq_true, decide_eq_true_eq]
    omega
  have hc2 : isContinuation (0x80 + c.toNat / 0x40 % 0x40) = true := by
    simp only [isContinuation, Bool.and_eq_true, decide_eq_true_eq]
    omega
  have hc3 : isContinuation (0x80 + c.toNat % 0x40) = true := by
    simp only [isContinuation, Bool.and_eq_true, decide_eq_true_eq]
    omega
  simp only [List.getD_cons_zero, List.getD_cons_succ, e, hc1, hc2, hc3]
  rw [if_neg (by omega), if_neg (by omega), if_neg (by omega),
    if_pos ⟨by omega, by omega, trivial, trivial, trivial, by omega, by omega⟩,
    Char.ofNat_toNat]

theorem decodeFuel_irrel (n : Nat) : ∀ (m : Nat) (bytes : StdString),
    bytes.length ≤ n → bytes.length ≤ m → decodeFuel n bytes = decodeFuel m bytes := by
  induction n with
  | zero =>
    intro m bytes hn _
    have hb : bytes = [] := List.length_eq_zero.1 (Nat.le_zero.1 hn)
    subst hb
    cases m <;> rfl
  | succ n ih =>
    intro m bytes hn hm
    cases bytes with
    | nil => cases m <;> rfl
    | cons b0 rest =>
      cases m with
      | zero => simp at hm
      | succ m =>
        simp only [List.length_cons, Nat.add_le_add_iff_right] at hn hm
        show _ :: decodeFuel n _ = _ :: decodeFuel m _
        rw [ih m _ (le_trans (by simp) hn) (le_trans (by simp) hm)]

theorem decodeUtf8_cons (b0 : Nat) (rest : StdString) :
    decodeUtf8 (b0 :: rest) =
      (decodeStep b0 rest).1 :: decodeUtf8 (rest.drop (decodeStep b0 rest).2) := by
  show _ :: decodeFuel rest.length _ = _
  rw [decodeFuel_irrel rest.length (rest.drop (decodeStep b0 rest).2).length _ (by simp) le_rfl]
  rfl

theorem decodeUtf8_utf8Char (c : Char) (rest : StdString) :
    decodeUtf8 (utf8Char c ++ rest) = c :: decodeUtf8 rest := by
  unfold utf8Char
  split_ifs with h1 h2 h3
  · rw [List.singleton_append, decodeUtf8_cons, decodeStep_one c h1]
    rfl
  · rw [List.cons_append, List.singleton_append, decodeUtf8_cons, decodeStep_two c h1 h2]
    rfl
  · rw [List.cons_append, List.cons_append, List.singleton_append, decodeUtf8_cons,
      decodeStep_three c h2 h3]
    rfl
  · rw [List.cons_append, List.cons_append, List.cons_append, List.singleton_append,
      decodeUtf8_cons, decodeStep_four c h3]
    rfl

theorem decodeUtf8_toStdString (q : QString) : decodeUtf8 (toStdString q) = q := by
  induction q with
  | nil => rfl
  | cons c cs ih =>
    show decodeUtf8 (utf8Char c ++ toStdString cs) = c :: cs
    rw [decodeUtf8_utf8Char, ih]

theorem utf8Char_byteOrderMark : utf8Char ByteOrderMark = [0xEF, 0xBB, 0xBF] := by decide

theorem not_bom_prefix_toStdString (q : QString) (h : q.head? ≠ some ByteOrderMark) :
    ¬ [0xEF, 0xBB, 0xBF] <+: toStdString q := by
  rintro ⟨r, hr⟩
  cases q with
  | nil => simp [toStdString] at hr
  | cons c cs =>
    have h2 : utf8Char c ++ toStdString cs = utf8Char ByteOrderMark ++ r := by
      rw [utf8Char_byteOrderMark]
      exact hr.symm
    have hc := (utf8Char_append_inj c ByteOrderMark _ _ h2).1
    exact h (by rw [hc]; rfl)

theorem fromStdString_toStdString (q : QString) (h : q.head? ≠ some ByteOrderMark) :
    fromStdString (toStdString q) = q := by
  unfold fromStdString
  rw [if_neg (not_bom_prefix_toStdString q h), decodeUtf8_toStdString]

theorem fromStdString_toStdString_byteOrderMark (q : QString) :
    fromStdString (toStdString (ByteOrderMark :: q)) = q := by
  have hb : toStdString (ByteOrderMark :: q) = [0xEF, 0xBB, 0xBF] ++ toStdString q := by
    show utf8Char ByteOrderMark ++ toStdString q = _
    rw [utf8Char_byteOrderMark]
  unfold fromStdString
  rw [hb, if_pos (List.prefix_append _ _)]
  show decodeUtf8 (toStdString q) = q
  exact decodeUtf8_toStdString q

/-! ## Prompts -/

/-- C11 as stated fails for a text that begins with U+FEFF: after
`setPrompt` with the text U+FEFF `>`, `prompt()` returns `>` without the first
character, and after `setDefaultPrompt` with it both getters do. -/
theorem prompt_byteOrderMark_counterexample :
    prompt (setPrompt (Console.init true) (ByteOrderMark :: ">".toList)) = ">".toList ∧
    prompt (setPrompt (Console.init true) (ByteOrderMark :: ">".toList))
      ≠ ByteOrderMark :: ">".toList ∧
    defaultPrompt (setDefaultPrompt (Console.init true) (ByteOrderMark :: ">".toList))
      ≠ ByteOrderMark :: ">".toList := by
  decide

/-- C11, amended to texts that do not begin with U+FEFF.  For all such texts
`d` and `p` and every session state: `setDefaultPrompt d` makes both
`defaultPrompt()` and `prompt()` equal `d`; `setPrompt p` makes `prompt()` equal
`p` and leaves `defaultPrompt()` unchanged; `resetPrompt` makes `prompt()` equal
the current `defaultPrompt()` and leaves `defaultPrompt()` unchanged; hence
after `setDefaultPrompt d; setPrompt p; resetPrompt` the current prompt is `d`. -/
theorem prompt_management (s : Console) (d p : QString)
    (hd : d.head? ≠ some ByteOrderMark) (hp : p.head? ≠ some ByteOrderMark) :
    defaultPrompt (setDefaultPrompt s d) = d ∧
    prompt (setDefaultPrompt s d) = d ∧
    prompt (setPrompt s p) = p ∧
    defaultPrompt (setPrompt s p) = defaultPrompt s ∧
    prompt (resetPrompt s) = defaultPrompt s ∧
    defaultPrompt (resetPrompt s) = defaultPrompt s ∧
    prompt (resetPrompt (setPrompt (setDefaultPrompt s d) p)) = d :=
  ⟨fromStdString_toStdString d hd, fromStdString_toStdString d hd,
    fromStdString_toStdString p hp, rfl, rfl, rfl, fromStdString_toStdString d hd⟩

/-- C11, amended, at the default prompt `>> ` and the prompt `password: ` on a
fresh console: after set-default, set and reset the current prompt is `>> `. -/
theorem prompt_management_witness :
    prompt (resetPrompt (setPrompt (setDefaultPrompt (Console.init true) ">> ".toList)
      "password: ".toList)) = ">> ".toList :=
  (prompt_management (Console.init true) ">> ".toList "password: ".toList
    (by decide) (by decide)).2.2.2.2.2.2

/-! ## Bounds of the colour buffer -/

theorem highlightLoop_eq_none (k : Nat) :
    ∀ (colors : List ReplxxColor) (i : Nat), i ≤ colors.length → colors.length < i + k →
      highlightLoop colors i k = none := by
  induction k with
  | zero =>
    intro colors i h1 h2
    omega
  | succ k ih =>
    intro colors i h1 h2
    by_cases hi : i < colors.length
    · rw [highlightLoop, if_pos hi]
      exact ih _ _ (by rw [List.length_set]; omega) (by rw [List.length_set]; omega)
    · rw [highlightLoop, if_neg hi]

theorem highlighterCallback_eq_none_iff (t : Trie) (input : StdString)
    (colors : List ReplxxColor) :
    highlighterCallback t input colors = none ↔
      colors.length < (prefixHighlightLength t input).toNat := by
  unfold highlighterCallback
  constructor
  · intro h
    by_contra hle
    rw [highlightLoop_eq _ colors 0 (by omega)] at h
    cases h
  · intro h
    exact highlightLoop_eq_none _ colors 0 (Nat.zero_le _) (by omega)

/-- C12 fails on the code.  With a command named `é` registered (two bytes in
UTF-8, one character) and the input `é`, `prefixHighlightLength` is 2 although
the colour buffer has one slot, so the loop reaches `colors.at(1)`, which is
outside the buffer: the call ends in `std::out_of_range`. -/
theorem highlighterCallback_out_of_range :
    "é".toList.length = 1 ∧
    (toStdString "é".toList).length = 2 ∧
    prefixHighlightLength (addCommand (Console.init true) ⟨"é".toList, [], 6⟩).m_commands
      (toStdString "é".toList) = 2 ∧
    highlighterCallback (addCommand (Console.init true) ⟨"é".toList, [], 6⟩).m_commands
      (toStdString "é".toList) (List.replicate "é".toList.length ReplxxColor.DEFAULT)
      = none := by
  decide

/-! ## The string model on small inputs -/

theorem toStdString_two_bytes : toStdString "é".toList = [0xC3, 0xA9] := by decide

theorem trimmed_both_ends : trimmed "  a b \t".toList = "a b".toList := by decide

theorem split_keeps_empty_parts :
    split ' ' "a  b".toList = ["a".toList, [], "b".toList] := by decide

theorem colorize_red_normal :
    colorize "x".toList Color.Red Style.Normal = "\x1b[0;31mx\x1b[0m".toList := by decide

end QConsole
